import Mathlib

/-!
Verification development for the media-transcriber utility (src/app.py).

The Python strings are modelled as `List Char` (one entry per code point).
Python library functions that the program calls (`urllib.parse.urlparse`,
`os.path.splitext`, `str.lower`, `str.strip`, `int(str)`) are embedded as
executable Lean functions translated from their CPython sources, restricted
to the ASCII range that all inputs of interest use:
  - `str.lower` is modelled as ASCII lowering (`Char.toLower`); the Unicode
    case table is out of scope.
  - `urlsplit` follows the CPython 3.12 algorithm (lstrip of C0-control or
    space, removal of tab or CR or LF, scheme split, netloc split, fragment
    split, query split).  The rare `ValueError` branches of `urlsplit`
    (unbalanced IPv6 brackets, the non-ASCII netloc check) are outside the
    model; no claim exercises bracketed hosts, and `is_valid_url` would map
    them to `False` anyway.
  - `os.path.splitext` is the POSIX variant (separator is a slash).
`mimetypes.guess_extension` reads a system-wide database, so it enters the
model as an explicit function parameter `g`; theorems quantify over it.
-/

/-- ASCII model of the Python method str.lower, mapping each character. -/
def strLower (s : List Char) : List Char := s.map Char.toLower

/-- Characters the Python method str.strip removes by default (ASCII part). -/
def isPySpace (c : Char) : Bool :=
  (c == ' ') || (c == '\t') || (c == '\n') || (c == '\r') || (c == '\x0b') || (c == '\x0c')

/-- Model of the Python method str.strip with no argument. -/
def pyStrip (s : List Char) : List Char :=
  ((s.dropWhile isPySpace).reverse.dropWhile isPySpace).reverse

/-- Index of the last occurrence of a character, as in the Python method str.rfind. -/
def rfindIdx (c : Char) : List Char → Option Nat
  | [] => none
  | x :: xs =>
    match rfindIdx c xs with
    | some j => some (j + 1)
    | none => if x == c then some 0 else none

/-- Association-list lookup, models a Python dict lookup for string keys. -/
def lookupCT : List (List Char × List Char) → List Char → Option (List Char)
  | [], _ => none
  | (k, v) :: rest, key => if key = k then some v else lookupCT rest key

/-- Components of a parsed URL that app.py consumes: scheme, netloc, path. -/
structure UrlParts where
  scheme : List Char
  netloc : List Char
  path : List Char
deriving DecidableEq

/-- Characters allowed after the first one in a URL scheme (CPython scheme_chars). -/
def isSchemeChar (c : Char) : Bool :=
  c.isAlpha || c.isDigit || (c == '+') || (c == '-') || (c == '.')

/-- Model of urllib.parse.urlsplit (CPython 3.12), scheme, netloc and path only;
query and fragment are split off and discarded since app.py never reads them. -/
def urlsplit (url0 : List Char) : UrlParts :=
  let url1 := (url0.dropWhile (fun c => c.toNat ≤ 32)).filter
    (fun c => !((c == '\t') || (c == '\r') || (c == '\n')))
  let sr :=
    match url1.findIdx? (fun c => c == ':') with
    | some i =>
      if 0 < i
          && (match url1 with | c :: _ => c.isAlpha | [] => false)
          && ((url1.drop 1).take (i - 1)).all isSchemeChar
      then (strLower (url1.take i), url1.drop (i + 1))
      else (([] : List Char), url1)
    | none => (([] : List Char), url1)
  let nr :=
    if sr.2.take 2 = ['/', '/'] then
      ((sr.2.drop 2).takeWhile (fun c => !((c == '/') || (c == '?') || (c == '#'))),
       (sr.2.drop 2).dropWhile (fun c => !((c == '/') || (c == '?') || (c == '#'))))
    else (([] : List Char), sr.2)
  let u4 := nr.2.takeWhile (fun c => !(c == '#'))
  let u5 := u4.takeWhile (fun c => !(c == '?'))
  ⟨sr.1, nr.1, u5⟩

/-- Model of urllib.parse.urlparse: urlsplit plus the parameter split that removes
a semicolon part from the last path segment. -/
def urlparse (url : List Char) : UrlParts :=
  let p := urlsplit url
  let path :=
    if ';' ∈ p.path then
      if '/' ∈ p.path then
        match rfindIdx '/' p.path with
        | some r =>
          match (p.path.drop r).findIdx? (fun c => c == ';') with
          | some j => p.path.take (r + j)
          | none => p.path
        | none => p.path
      else p.path.takeWhile (fun c => !(c == ';'))
    else p.path
  ⟨p.scheme, p.netloc, path⟩

/-- Start of the final path segment: one past the last slash, or zero
(sepIndex + 1 of the CPython splitext code, with sepIndex = -1 when absent). -/
def fstartOf (p : List Char) : Nat :=
  match rfindIdx '/' p with
  | none => 0
  | some s => s + 1

/-- Model of os.path.splitext (POSIX): split at the last dot of the last path
segment, unless every character of the segment before that dot is a dot. -/
def os_splitext (p : List Char) : List Char × List Char :=
  match rfindIdx '.' p with
  | none => (p, [])
  | some d =>
    if fstartOf p ≤ d ∧
        ((p.drop (fstartOf p)).take (d - fstartOf p)).any (fun c => !(c == '.')) = true
    then (p.take d, p.drop d)
    else (p, [])

/-- The set SUPPORTED_EXTS of app.py, as a list of extension strings. -/
def SUPPORTED_EXTS : List (List Char) :=
  [".mp3".toList, ".mp4".toList, ".mpeg".toList, ".mpga".toList, ".m4a".toList,
   ".wav".toList, ".webm".toList, ".ogg".toList, ".oga".toList, ".mkv".toList,
   ".mov".toList, ".m4v".toList]

/-- The dict CONTENT_TYPE_TO_EXT of app.py. -/
def CONTENT_TYPE_TO_EXT : List (List Char × List Char) :=
  [("audio/mpeg".toList, ".mp3".toList),
   ("audio/mp3".toList, ".mp3".toList),
   ("audio/mp4".toList, ".m4a".toList),
   ("audio/x-m4a".toList, ".m4a".toList),
   ("audio/wav".toList, ".wav".toList),
   ("audio/x-wav".toList, ".wav".toList),
   ("audio/webm".toList, ".webm".toList),
   ("audio/ogg".toList, ".ogg".toList),
   ("video/mp4".toList, ".mp4".toList),
   ("video/quicktime".toList, ".mov".toList),
   ("video/x-matroska".toList, ".mkv".toList),
   ("video/webm".toList, ".webm".toList)]

/-- The default extension returned by infer_extension. -/
def mp4ext : List Char := ".mp4".toList

/-- Normalisation applied to a content type: split at the first semicolon,
strip, lowercase (line 52 of app.py). -/
def normCT (c : List Char) : List Char :=
  strLower (pyStrip (c.takeWhile (fun ch => !(ch == ';'))))

/-- Model of infer_extension (app.py lines 44 to 61).  The parameter g stands
for mimetypes.guess_extension, whose answer depends on the system database.
The early returns of the Python body become the branches of this expression;
the condition on g mirrors the truthiness test if guessed. -/
def infer_extension (g : List Char → Option (List Char)) (url : List Char)
    (content_type : Option (List Char)) : List Char :=
  let path_ext := strLower (os_splitext (urlparse url).path).2
  if path_ext ∈ SUPPORTED_EXTS then path_ext
  else
    match content_type with
    | none => mp4ext
    | some c =>
      if c = [] then mp4ext
      else
        match lookupCT CONTENT_TYPE_TO_EXT (normCT c) with
        | some e => e
        | none =>
          match g (normCT c) with
          | none => mp4ext
          | some e2 => if e2 ≠ [] ∧ e2 ∈ SUPPORTED_EXTS then e2 else mp4ext

/-- Model of is_valid_url (app.py lines 36 to 41).  The try or except wrapper
of the source is invisible here because the modelled urlparse is total. -/
def is_valid_url (url : List Char) : Bool :=
  let p := urlparse url
  decide ((p.scheme = "http".toList ∨ p.scheme = "https".toList) ∧ p.netloc ≠ [])

/-- Digit run of a Python integer literal string: single underscores are
allowed between digits (used by int(str)). -/
def parseDigitsRest : List Char → Nat → Option Nat
  | [], acc => some acc
  | ['_'], _ => none
  | '_' :: c :: rest, acc =>
    if c.isDigit then parseDigitsRest rest (acc * 10 + (c.toNat - 48)) else none
  | c :: rest, acc =>
    if c.isDigit then parseDigitsRest rest (acc * 10 + (c.toNat - 48)) else none

/-- Unsigned part of int(str). -/
def parseNatStr : List Char → Option Nat
  | [] => none
  | c :: rest => if c.isDigit then parseDigitsRest rest (c.toNat - 48) else none

/-- Model of the Python conversion int(str) on ASCII input: strip whitespace,
optional sign, decimal digits with single underscores between digits.
Returns none where Python raises ValueError. -/
def pyInt (s : List Char) : Option Int :=
  match pyStrip s with
  | '+' :: rest => (parseNatStr rest).map (fun n => (n : Int))
  | '-' :: rest => (parseNatStr rest).map (fun n => -(n : Int))
  | l => (parseNatStr l).map (fun n => (n : Int))

/-- An HTTP response as download_media observes it: final status, the two
headers it reads, and the chunk sequence that iter_content yields.  An error
item models a network failure in the middle of the stream (requests raises a
RequestException from the read). -/
structure HttpResponse where
  status : Nat
  contentLength : Option (List Char)
  contentType : Option (List Char)
  body : List (Except Unit (List Nat))

/-- One invocation of the per-chunk progress update (app.py lines 86 to 91):
with a known positive total the bar shows a percentage, otherwise the
indeterminate branch runs with the byte count only. -/
inductive ProgressEvent where
  | known (downloaded : Nat) (total : Int)
  | indeterminate (downloaded : Nat)
deriving DecidableEq

/-- How download_media terminates.  httpError is the HTTPError of
raise_for_status (a requests RequestException); streamError is a network
failure while iterating chunks (also a RequestException); valueError is the
int() failure on a malformed Content-Length header (not a RequestException). -/
inductive DLOutcome where
  | ok (path : List Char)
  | httpError (status : Nat)
  | streamError
  | valueError
deriving DecidableEq

/-- Observable trace of one download_media call. -/
structure DLTrace where
  outcome : DLOutcome
  chosenSuffix : Option (List Char)
  fileCreated : Bool
  fileContent : List Nat
  events : List ProgressEvent
  flushed : Bool
  closed : Bool
  barCreated : Bool
  barCleared : Bool
deriving DecidableEq

/-- Value of int(r.headers.get("Content-Length", 0)) (app.py line 70):
an absent header gives the integer 0, a present header string is parsed
and may fail. -/
def clTotal (r : HttpResponse) : Option Int :=
  match r.contentLength with
  | none => some 0
  | some s => pyInt s

/-- The chunk loop of download_media (app.py lines 82 to 91): returns whether
the body completed, the bytes written, and the progress events, threading the
downloaded counter.  Empty chunks are skipped by the if chunk test. -/
def streamLoop (total : Int) : List (Except Unit (List Nat)) → Nat → List Nat →
    List ProgressEvent → (Bool × List Nat × List ProgressEvent)
  | [], _, content, evs => (true, content, evs)
  | .error _ :: _, _, content, evs => (false, content, evs)
  | .ok chunk :: rest, d, content, evs =>
    if chunk = [] then streamLoop total rest d content evs
    else
      streamLoop total rest (d + chunk.length) (content ++ chunk)
        (evs ++ [if 0 < total then ProgressEvent.known (d + chunk.length) total
                 else ProgressEvent.indeterminate (d + chunk.length)])

/-- Model of download_media (app.py lines 64 to 97).  tmpName stands for the
unique name that tempfile.NamedTemporaryFile picks.  raise_for_status raises
exactly for statuses 400 to 599.  The finally block (flush, close, clear the
bar) runs on both exits of the loop. -/
def download_media (g : List Char → Option (List Char)) (tmpName url : List Char)
    (r : HttpResponse) : DLTrace :=
  if 400 ≤ r.status ∧ r.status < 600 then
    ⟨DLOutcome.httpError r.status, none, false, [], [], false, false, false, false⟩
  else
    match clTotal r with
    | none => ⟨DLOutcome.valueError, none, false, [], [], false, false, false, false⟩
    | some total =>
      let content_type := r.contentType.getD []
      let e0 := infer_extension g url (some content_type)
      let ext := if e0 ∈ SUPPORTED_EXTS then e0 else mp4ext
      let res := streamLoop total r.body 0 [] []
      ⟨if res.1 then DLOutcome.ok tmpName else DLOutcome.streamError,
       some ext, true, res.2.1, res.2.2, true, true, true, true⟩

/-- The user-visible message classes of main. -/
inductive MainMsg where
  | success
  | invalidUrl
  | downloadFail
  | genericError
deriving DecidableEq

/-- Observable trace of one button-triggered run of main. -/
structure MainTrace where
  message : MainMsg
  placeholderCreated : Bool
  placeholderCleared : Bool
  tmpFileCreated : Bool
  removeAttempts : Nat
  fileExistsAfter : Bool
deriving DecidableEq

/-- Model of the request-handling flow of main (app.py lines 123 to 160) after
the button click.  transcription is the result of the external transcription
call; removeFails says whether os.remove fails (its exception is swallowed).
The finally block clears the placeholder and removes the file only when
downloaded_path was assigned, which happens only when download_media returned. -/
def mainFlow (g : List Char → Option (List Char)) (tmpName url : List Char)
    (r : HttpResponse) (transcription : Except Unit (List Char))
    (removeFails : Bool) : MainTrace :=
  if url = [] ∨ is_valid_url url = false then
    ⟨MainMsg.invalidUrl, false, false, false, 0, false⟩
  else
    let dl := download_media g tmpName url r
    let mp : MainMsg × Bool :=
      match dl.outcome with
      | DLOutcome.ok _ =>
        (match transcription with
         | Except.ok _ => (MainMsg.success, true)
         | Except.error _ => (MainMsg.genericError, true))
      | DLOutcome.httpError _ => (MainMsg.downloadFail, false)
      | DLOutcome.streamError => (MainMsg.downloadFail, false)
      | DLOutcome.valueError => (MainMsg.genericError, false)
    ⟨mp.1, true, true, dl.fileCreated,
     if mp.2 then 1 else 0,
     if mp.2 then removeFails else dl.fileCreated⟩

/-- Progress events the specification predicts for a known positive total:
one invocation per non-empty chunk, carrying the running byte counter. -/
def knownEvents (total : Int) : List (List Nat) → Nat → List ProgressEvent
  | [], _ => []
  | c :: rest, d =>
    if c = [] then knownEvents total rest d
    else ProgressEvent.known (d + c.length) total :: knownEvents total rest (d + c.length)

/-- Total byte count of a chunk list. -/
def sumLens : List (List Nat) → Nat
  | [] => 0
  | c :: rest => c.length + sumLens rest

/-- A guess function standing for a mimetypes database with no match. -/
def guessNone : List Char → Option (List Char) := fun _ => none

/-- Fixture: a temporary file name. -/
def tmp0 : List Char := "/tmp/tmpabc123.mp4".toList

/-- Fixture: a well-formed media URL. -/
def url0 : List Char := "https://example.com/v.mp4".toList

/-- A successful association-list lookup returns a listed pair. -/
theorem lookupCT_mem (l : List (List Char × List Char)) (k e : List Char)
    (h : lookupCT l k = some e) : (k, e) ∈ l := by
  induction l with
  | nil => exact absurd h (by simp [lookupCT])
  | cons p rest ih =>
    rcases p with ⟨k0, v0⟩
    simp only [lookupCT] at h
    by_cases hk : k = k0
    · rw [if_pos hk] at h
      obtain rfl : v0 = e := Option.some.inj h
      subst hk
      exact List.mem_cons_self _ _
    · rw [if_neg hk] at h
      exact List.mem_cons_of_mem _ (ih h)

/-- Every value of the content-type table is a supported extension. -/
theorem lookupCT_mem_supported (k e : List Char)
    (h : lookupCT CONTENT_TYPE_TO_EXT k = some e) : e ∈ SUPPORTED_EXTS := by
  have hm := lookupCT_mem _ k e h
  fin_cases hm <;> decide

/-- A supported extension is a non-empty string. -/
theorem mem_supported_ne_nil (e : List Char) (h : e ∈ SUPPORTED_EXTS) : e ≠ [] := by
  intro h0
  rw [h0] at h
  exact absurd h (by decide)

/-- The resolver always lands in the supported set, whatever the URL, the
content type and the mimetypes database answer. -/
theorem infer_extension_mem (g : List Char → Option (List Char)) (url : List Char)
    (ct : Option (List Char)) : infer_extension g url ct ∈ SUPPORTED_EXTS := by
  cases ct with
  | none =>
    simp only [infer_extension]
    split_ifs with hpe
    · exact hpe
    · decide
  | some c =>
    simp only [infer_extension]
    split_ifs with hpe hc
    · exact hpe
    · decide
    · cases hl : lookupCT CONTENT_TYPE_TO_EXT (normCT c) with
      | some e => exact lookupCT_mem_supported _ e hl
      | none =>
        cases hg : g (normCT c) with
        | none => show mp4ext ∈ SUPPORTED_EXTS; decide
        | some e2 =>
          show (if e2 ≠ [] ∧ e2 ∈ SUPPORTED_EXTS then e2 else mp4ext) ∈ SUPPORTED_EXTS
          split_ifs with h2
          · exact h2.2
          · decide

/-- The suffix recorded for the temporary file is either absent (no file was
created) or the checked extension computed on lines 72 to 75 of app.py. -/
theorem download_media_chosenSuffix (g : List Char → Option (List Char))
    (tmp url : List Char) (r : HttpResponse) :
    (download_media g tmp url r).chosenSuffix = none ∨
    (download_media g tmp url r).chosenSuffix =
      some (if infer_extension g url (some (r.contentType.getD [])) ∈ SUPPORTED_EXTS
            then infer_extension g url (some (r.contentType.getD [])) else mp4ext) := by
  rw [download_media]
  by_cases hs : 400 ≤ r.status ∧ r.status < 600
  · rw [if_pos hs]
    exact Or.inl rfl
  · rw [if_neg hs]
    cases hct : clTotal r with
    | none => exact Or.inl rfl
    | some total => exact Or.inr rfl

/-- C2: for every URL string and every optional content-type string the
extension returned by infer_extension is a member of the Supported Extension
Set; the suffix chosen for the temporary file of download_media is likewise
a member; and the default .mp4 itself is a member, so the value is never
unset or out of the set. -/
theorem c2_extension_always_supported (g : List Char → Option (List Char))
    (url : List Char) (ct : Option (List Char)) (tmp : List Char) (r : HttpResponse) :
    infer_extension g url ct ∈ SUPPORTED_EXTS ∧
    (∀ e, (download_media g tmp url r).chosenSuffix = some e → e ∈ SUPPORTED_EXTS) ∧
    mp4ext ∈ SUPPORTED_EXTS := by
  refine ⟨infer_extension_mem g url ct, ?_, by decide⟩
  intro e he
  rcases download_media_chosenSuffix g tmp url r with h | h
  · rw [h] at he
    exact Option.noConfusion he
  · rw [h] at he
    obtain rfl := Option.some.inj he
    split_ifs with hmem
    · exact hmem
    · decide

/-- C2 witness at a concrete response. -/
theorem c2_extension_always_supported_witness :
    infer_extension guessNone url0 none ∈ SUPPORTED_EXTS ∧
    ".mp4".toList ∈ SUPPORTED_EXTS :=
  ⟨(c2_extension_always_supported guessNone url0 none tmp0
      ⟨200, none, none, []⟩).1,
   (c2_extension_always_supported guessNone url0 none tmp0
      ⟨200, none, none, []⟩).2.1 (".mp4".toList) (by decide)⟩

/-- C4 counterexample: a 304 response is not a 2xx success, yet download_media
does not fail; raise_for_status only raises for 4xx and 5xx, so the download
proceeds, creates the temporary file and returns its path. -/
theorem c4_counterexample :
    ¬(200 ≤ 304 ∧ 304 < 300) ∧
    (download_media guessNone tmp0 url0 ⟨304, none, none, []⟩).outcome =
      DLOutcome.ok tmp0 ∧
    (download_media guessNone tmp0 url0 ⟨304, none, none, []⟩).fileCreated = true := by
  decide

/-- C4 amended: for every response whose status lies in 400..599,
download_media fails with the HTTPError of raise_for_status carrying that
status, and it fails before the temporary file is created, before any byte
is written and before any progress update. -/
theorem c4_http_error_amended (g : List Char → Option (List Char))
    (tmp url : List Char) (r : HttpResponse)
    (h4 : 400 ≤ r.status) (h6 : r.status < 600) :
    download_media g tmp url r =
      ⟨DLOutcome.httpError r.status, none, false, [], [], false, false, false, false⟩ := by
  rw [download_media, if_pos ⟨h4, h6⟩]

/-- C4 amended witness at a concrete 404 response. -/
theorem c4_http_error_amended_witness :
    download_media guessNone tmp0 url0 ⟨404, none, none, []⟩ =
      ⟨DLOutcome.httpError 404, none, false, [], [], false, false, false, false⟩ :=
  c4_http_error_amended guessNone tmp0 url0 ⟨404, none, none, []⟩ (by decide) (by decide)

/-- C8: is_valid_url is true exactly when the parsed URL has scheme http or
https and a non-empty netloc; the four example inputs of the specification
evaluate as stated. -/
theorem c8_is_valid_url_spec :
    (∀ s : List Char, is_valid_url s = true ↔
      (((urlparse s).scheme = "http".toList ∨ (urlparse s).scheme = "https".toList) ∧
        (urlparse s).netloc ≠ [])) ∧
    is_valid_url ("https://example.com/v.mp4".toList) = true ∧
    is_valid_url ("ftp://x.com/v.mp4".toList) = false ∧
    is_valid_url ("not a url".toList) = false ∧
    is_valid_url ("http://".toList) = false := by
  refine ⟨fun s => ?_, by decide, by decide, by decide, by decide⟩
  simp [is_valid_url]

/-- C9: a success-status response with an empty body yields a successful
download with an existing, empty temporary file, no per-chunk progress
invocation, and one created-then-cleared progress indicator. -/
theorem c9_zero_byte_success (g : List Char → Option (List Char))
    (tmp url : List Char) (r : HttpResponse)
    (hst : 200 ≤ r.status ∧ r.status < 300) (hb : r.body = [])
    (t : Int) (hcl : clTotal r = some t) :
    (download_media g tmp url r).outcome = DLOutcome.ok tmp ∧
    (download_media g tmp url r).fileCreated = true ∧
    (download_media g tmp url r).fileContent = [] ∧
    (download_media g tmp url r).events = [] ∧
    (download_media g tmp url r).barCreated = true ∧
    (download_media g tmp url r).barCleared = true := by
  have hns : ¬(400 ≤ r.status ∧ r.status < 600) := by omega
  rw [download_media, if_neg hns, hcl, hb]
  exact ⟨rfl, rfl, rfl, rfl, rfl, rfl⟩

/-- C9 witness at a concrete empty-body 200 response. -/
theorem c9_zero_byte_success_witness :
    (download_media guessNone tmp0 url0 ⟨200, none, none, []⟩).outcome =
        DLOutcome.ok tmp0 ∧
    (download_media guessNone tmp0 url0 ⟨200, none, none, []⟩).fileContent = [] ∧
    (download_media guessNone tmp0 url0 ⟨200, none, none, []⟩).events = [] := by
  have h := c9_zero_byte_success guessNone tmp0 url0 ⟨200, none, none, []⟩
    (by decide) rfl 0 rfl
  exact ⟨h.1, h.2.2.1, h.2.2.2.1⟩

/-- C10: a 2xx response whose Content-Length header is not a decimal integer
makes download_media fail with the ValueError of the int conversion, before
the temporary file is created; this error is not a RequestException, so the
main flow reports the generic error message rather than the download-failure
message. -/
theorem c10_bad_content_length :
    pyInt ("abc".toList) = none ∧
    download_media guessNone tmp0 url0
        ⟨200, some ("abc".toList), some ("video/mp4".toList), [Except.ok [1, 2, 3]]⟩ =
      ⟨DLOutcome.valueError, none, false, [], [], false, false, false, false⟩ ∧
    (mainFlow guessNone tmp0 url0
        ⟨200, some ("abc".toList), some ("video/mp4".toList), [Except.ok [1, 2, 3]]⟩
        (Except.ok ("t".toList)) false).message = MainMsg.genericError ∧
    MainMsg.genericError ≠ MainMsg.downloadFail := by
  decide

/-- C6 counterexample: a network failure in the middle of the stream happens
after the temporary file is created, yet download_media raises before
returning the path; downloaded_path stays None in main, so the finally block
never removes the file, which still exists when the flow ends even though
os.remove would have succeeded. -/
theorem c6_counterexample :
    (download_media guessNone tmp0 url0 ⟨200, none, none, [Except.error ()]⟩).fileCreated
      = true ∧
    mainFlow guessNone tmp0 url0 ⟨200, none, none, [Except.error ()]⟩
        (Except.ok ("t".toList)) false =
      ⟨MainMsg.downloadFail, true, true, true, 0, true⟩ := by
  decide

/-- C6 amended: once the URL passes validation, the finally block of main
clears the progress placeholder on every exit path; the temporary file is
removed exactly once, best-effort, whenever download_media returned its path
(so after a full successful cycle with a working os.remove the file is gone),
but when download_media raises after creating the file, the file is not
removed because its path never reached the caller. -/
theorem c6_cleanup_amended (g : List Char → Option (List Char))
    (tmp url : List Char) (r : HttpResponse)
    (tr : Except Unit (List Char)) (rf : Bool)
    (hurl : ¬(url = [] ∨ is_valid_url url = false)) :
    (mainFlow g tmp url r tr rf).placeholderCleared = true ∧
    ((download_media g tmp url r).outcome = DLOutcome.ok tmp →
      (mainFlow g tmp url r tr rf).removeAttempts = 1 ∧
      (mainFlow g tmp url r tr rf).fileExistsAfter = rf) ∧
    ((∀ p, (download_media g tmp url r).outcome ≠ DLOutcome.ok p) →
      (mainFlow g tmp url r tr rf).removeAttempts = 0 ∧
      (mainFlow g tmp url r tr rf).fileExistsAfter =
        (download_media g tmp url r).fileCreated) := by
  rw [mainFlow.eq_def, if_neg hurl]
  dsimp only
  cases ho : (download_media g tmp url r).outcome with
  | ok p =>
    cases tr with
    | ok txt =>
      refine ⟨rfl, fun _ => ⟨rfl, rfl⟩, fun hne => absurd rfl (hne p)⟩
    | error u =>
      refine ⟨rfl, fun _ => ⟨rfl, rfl⟩, fun hne => absurd rfl (hne p)⟩
  | httpError st =>
    refine ⟨rfl, fun hok => DLOutcome.noConfusion hok, fun _ => ⟨rfl, rfl⟩⟩
  | streamError =>
    refine ⟨rfl, fun hok => DLOutcome.noConfusion hok, fun _ => ⟨rfl, rfl⟩⟩
  | valueError =>
    refine ⟨rfl, fun hok => DLOutcome.noConfusion hok, fun _ => ⟨rfl, rfl⟩⟩

/-- C6 amended witness: a full successful cycle on a concrete response with a
working os.remove ends with the placeholder cleared, one removal, and no file
left at the returned path. -/
theorem c6_cleanup_amended_witness :
    (mainFlow guessNone tmp0 url0 ⟨200, none, none, [Except.ok [9]]⟩
        (Except.ok ("t".toList)) false).placeholderCleared = true ∧
    (mainFlow guessNone tmp0 url0 ⟨200, none, none, [Except.ok [9]]⟩
        (Except.ok ("t".toList)) false).removeAttempts = 1 ∧
    (mainFlow guessNone tmp0 url0 ⟨200, none, none, [Except.ok [9]]⟩
        (Except.ok ("t".toList)) false).fileExistsAfter = false := by
  have h := c6_cleanup_amended guessNone tmp0 url0 ⟨200, none, none, [Except.ok [9]]⟩
    (Except.ok ("t".toList)) false (by decide)
  exact ⟨h.1, (h.2.1 (by decide)).1, (h.2.1 (by decide)).2⟩

/-- C7: whenever download_media created the destination temporary file, the
finally block of the streaming loop flushed and closed its handle before
control returned, on the success exit as well as on the mid-stream failure
exit. -/
theorem c7_handle_flushed_closed (g : List Char → Option (List Char))
    (tmp url : List Char) (r : HttpResponse)
    (h : (download_media g tmp url r).fileCreated = true) :
    (download_media g tmp url r).flushed = true ∧
    (download_media g tmp url r).closed = true := by
  rw [download_media] at h ⊢
  by_cases hs : 400 ≤ r.status ∧ r.status < 600
  · rw [if_pos hs] at h
    exact absurd h (by simp)
  · rw [if_neg hs] at h ⊢
    cases hct : clTotal r with
    | none =>
      rw [hct] at h
      exact absurd h (by simp)
    | some total => exact ⟨rfl, rfl⟩

/-- C7 witness: a concrete mid-stream network failure still flushes and
closes the handle. -/
theorem c7_handle_flushed_closed_witness :
    (download_media guessNone tmp0 url0
        ⟨200, some ("5".toList), none, [Except.ok [1], Except.error ()]⟩).flushed = true ∧
    (download_media guessNone tmp0 url0
        ⟨200, some ("5".toList), none, [Except.ok [1], Except.error ()]⟩).closed = true :=
  c7_handle_flushed_closed guessNone tmp0 url0
    ⟨200, some ("5".toList), none, [Except.ok [1], Except.error ()]⟩ (by decide)

/-- When the path extension is not supported, the resolver reduces to the
content-type chain of app.py lines 51 to 61. -/
theorem infer_extension_of_not_path (g : List Char → Option (List Char))
    (url : List Char) (c : List Char)
    (hpe : strLower (os_splitext (urlparse url).path).2 ∉ SUPPORTED_EXTS) :
    infer_extension g url (some c) =
      (if c = [] then mp4ext
       else
         match lookupCT CONTENT_TYPE_TO_EXT (normCT c) with
         | some e => e
         | none =>
           match g (normCT c) with
           | none => mp4ext
           | some e2 => if e2 ≠ [] ∧ e2 ∈ SUPPORTED_EXTS then e2 else mp4ext) := by
  simp only [infer_extension]
  rw [if_neg hpe]

/-- The empty content type is not a key of the table. -/
theorem lookupCT_nil : lookupCT CONTENT_TYPE_TO_EXT ([] : List Char) = none := by
  decide

/-- C1: infer_extension follows the strict priority order: a supported
lowercased URL-path suffix wins; otherwise a supplied content type is
normalised and looked up in the table; otherwise a generic guess is accepted
only when it lies in the supported set; otherwise the fixed default .mp4 is
returned.  The hypothesis on g records that the generic guesser has no answer
for the empty string, as mimetypes.guess_extension has none, which covers the
falsy-content-type branch of line 51. -/
theorem c1_infer_extension_priority (g : List Char → Option (List Char))
    (hg : g [] = none) (url : List Char) (ct : Option (List Char)) :
    (strLower (os_splitext (urlparse url).path).2 ∈ SUPPORTED_EXTS →
      infer_extension g url ct = strLower (os_splitext (urlparse url).path).2) ∧
    (strLower (os_splitext (urlparse url).path).2 ∉ SUPPORTED_EXTS →
      ∀ c e, ct = some c → lookupCT CONTENT_TYPE_TO_EXT (normCT c) = some e →
        infer_extension g url ct = e) ∧
    (strLower (os_splitext (urlparse url).path).2 ∉ SUPPORTED_EXTS →
      ∀ c e, ct = some c → lookupCT CONTENT_TYPE_TO_EXT (normCT c) = none →
        g (normCT c) = some e → e ∈ SUPPORTED_EXTS → infer_extension g url ct = e) ∧
    (strLower (os_splitext (urlparse url).path).2 ∉ SUPPORTED_EXTS →
      ct = none → infer_extension g url ct = mp4ext) ∧
    (strLower (os_splitext (urlparse url).path).2 ∉ SUPPORTED_EXTS →
      ∀ c, ct = some c → lookupCT CONTENT_TYPE_TO_EXT (normCT c) = none →
        (∀ e, g (normCT c) = some e → e ∉ SUPPORTED_EXTS) →
        infer_extension g url ct = mp4ext) := by
  refine ⟨?_, ?_, ?_, ?_, ?_⟩
  · intro hpe
    simp only [infer_extension]
    rw [if_pos hpe]
  · intro hpe c e hct hl
    subst hct
    rw [infer_extension_of_not_path g url c hpe]
    by_cases hc0 : c = []
    · subst hc0
      rw [show normCT ([] : List Char) = [] from rfl, lookupCT_nil] at hl
      exact Option.noConfusion hl
    · rw [if_neg hc0, hl]
  · intro hpe c e hct hl hg2 hmem
    subst hct
    rw [infer_extension_of_not_path g url c hpe]
    by_cases hc0 : c = []
    · subst hc0
      rw [show normCT ([] : List Char) = [] from rfl, hg] at hg2
      exact Option.noConfusion hg2
    · rw [if_neg hc0, hl, hg2]
      show (if e ≠ [] ∧ e ∈ SUPPORTED_EXTS then e else mp4ext) = e
      rw [if_pos ⟨mem_supported_ne_nil e hmem, hmem⟩]
  · intro hpe hct
    subst hct
    simp only [infer_extension]
    rw [if_neg hpe]
  · intro hpe c hct hl hnone
    subst hct
    rw [infer_extension_of_not_path g url c hpe]
    by_cases hc0 : c = []
    · rw [if_pos hc0]
    · rw [if_neg hc0, hl]
      cases hgc : g (normCT c) with
      | none => rfl
      | some e2 =>
        show (if e2 ≠ [] ∧ e2 ∈ SUPPORTED_EXTS then e2 else mp4ext) = mp4ext
        rw [if_neg (fun h2 => hnone e2 hgc h2.2)]

/-- C1 witness: the specification example audio/mpeg with a charset parameter
resolves to .mp3 through the table step. -/
theorem c1_infer_extension_priority_witness :
    strLower (os_splitext (urlparse ("https://x.com/file".toList)).path).2 ∉
        SUPPORTED_EXTS ∧
    infer_extension guessNone ("https://x.com/file".toList)
      (some ("audio/mpeg; charset=binary".toList)) = ".mp3".toList := by
  refine ⟨by decide, ?_⟩
  exact (c1_infer_extension_priority guessNone rfl ("https://x.com/file".toList)
      (some ("audio/mpeg; charset=binary".toList))).2.1 (by decide)
    ("audio/mpeg; charset=binary".toList) (".mp3".toList) rfl (by decide)

/-- With a positive total and a fully delivered body, the loop appends
exactly the predicted known-total events. -/
theorem streamLoop_ok_events (total : Int) (ht : 0 < total) (chunks : List (List Nat)) :
    ∀ (d : Nat) (content : List Nat) (evs : List ProgressEvent),
      (streamLoop total (chunks.map Except.ok) d content evs).2.2 =
        evs ++ knownEvents total chunks d := by
  induction chunks with
  | nil => intro d content evs; simp [streamLoop, knownEvents]
  | cons c rest ih =>
    intro d content evs
    by_cases hc : c = []
    · subst hc
      simp only [List.map_cons, streamLoop, knownEvents, if_pos rfl]
      exact ih d content evs
    · simp only [List.map_cons, streamLoop, knownEvents, if_neg hc, if_pos ht]
      rw [ih (d + c.length) (content ++ c)
        (evs ++ [ProgressEvent.known (d + c.length) total])]
      simp

/-- The predicted event list is empty exactly when every chunk is empty. -/
theorem knownEvents_eq_nil_iff (total : Int) :
    ∀ (chunks : List (List Nat)) (d : Nat),
      knownEvents total chunks d = [] ↔ sumLens chunks = 0 := by
  intro chunks
  induction chunks with
  | nil => intro d; simp [knownEvents, sumLens]
  | cons c rest ih =>
    intro d
    by_cases hc : c = []
    · subst hc
      simp only [knownEvents, if_pos rfl, sumLens, List.length_nil, Nat.zero_add]
      exact ih d
    · simp only [knownEvents, if_neg hc, sumLens]
      have hlen : c.length ≠ 0 := fun h => hc (List.length_eq_zero.1 h)
      constructor
      · intro h; exact absurd h (by simp)
      · intro h; omega

/-- The last predicted event carries the full byte count. -/
theorem knownEvents_getLast (total : Int) :
    ∀ (chunks : List (List Nat)) (d : Nat), sumLens chunks ≠ 0 →
      (knownEvents total chunks d).getLast? =
        some (ProgressEvent.known (d + sumLens chunks) total) := by
  intro chunks
  induction chunks with
  | nil => intro d h; exact absurd rfl h
  | cons c rest ih =>
    intro d h
    by_cases hc : c = []
    · subst hc
      have he : knownEvents total (([] : List Nat) :: rest) d = knownEvents total rest d := by
        simp [knownEvents]
      rw [he]
      have hr : sumLens rest ≠ 0 := by
        simpa [sumLens] using h
      rw [ih d hr]
      simp [sumLens]
    · simp only [knownEvents, if_neg hc]
      by_cases hr : sumLens rest = 0
      · rw [(knownEvents_eq_nil_iff total rest (d + c.length)).2 hr]
        have : d + c.length = d + sumLens (c :: rest) := by
          simp only [sumLens]; omega
        simp [List.getLast?, this]
      · cases hk : knownEvents total rest (d + c.length) with
        | nil => exact absurd ((knownEvents_eq_nil_iff total rest (d + c.length)).1 hk) hr
        | cons x xs =>
          rw [List.getLast?_cons_cons, ← hk, ih (d + c.length) hr]
          have : d + c.length + sumLens rest = d + sumLens (c :: rest) := by
            simp only [sumLens]; omega
          rw [this]

/-- With a non-positive total every event the loop ever emits is
indeterminate, whatever the body contains. -/
theorem streamLoop_indet_events (total : Int) (ht : total ≤ 0) :
    ∀ (items : List (Except Unit (List Nat))) (d : Nat) (content : List Nat)
      (evs : List ProgressEvent),
      (∀ e ∈ evs, ∃ d2, e = ProgressEvent.indeterminate d2) →
      ∀ e ∈ (streamLoop total items d content evs).2.2,
        ∃ d2, e = ProgressEvent.indeterminate d2 := by
  intro items
  induction items with
  | nil => intro d content evs hevs; simpa [streamLoop] using hevs
  | cons it rest ih =>
    intro d content evs hevs
    cases it with
    | error u => simpa [streamLoop] using hevs
    | ok chunk =>
      by_cases hc : chunk = []
      · subst hc
        simp only [streamLoop, if_pos rfl]
        exact ih d content evs hevs
      · simp only [streamLoop, if_neg hc, if_neg (not_lt.2 ht)]
        refine ih _ _ _ ?_
        intro e he
        rcases List.mem_append.1 he with h | h
        · exact hevs e h
        · rw [List.mem_singleton] at h
          subst h
          exact ⟨d + chunk.length, rfl⟩

/-- C5: when the Content-Length header parses to N > 0 and the body delivers
its chunks completely, the events are exactly one per non-empty chunk with the
running counter, and if the chunks total N the final invocation reports
downloadedBytes = N with total = N; when the header is absent or parses to
zero, every invocation is in indeterminate mode. -/
theorem c5_progress_reporting (g : List Char → Option (List Char))
    (tmp url : List Char) (r : HttpResponse) :
    (∀ (chunks : List (List Nat)) (s : List Char) (N : Nat),
      r.body = chunks.map Except.ok →
      r.contentLength = some s → pyInt s = some (N : Int) → 0 < N →
      ¬(400 ≤ r.status ∧ r.status < 600) →
      (download_media g tmp url r).events = knownEvents (N : Int) chunks 0 ∧
        (sumLens chunks = N →
          (download_media g tmp url r).events.getLast? =
            some (ProgressEvent.known N (N : Int)))) ∧
    ((r.contentLength = none ∨ ∃ s, r.contentLength = some s ∧ pyInt s = some 0) →
      ∀ e ∈ (download_media g tmp url r).events,
        ∃ d, e = ProgressEvent.indeterminate d) := by
  constructor
  · intro chunks s N hb hcls hpi hN hst
    have hcl : clTotal r = some (N : Int) := by
      rw [clTotal.eq_def, hcls]
      exact hpi
    have hev : (download_media g tmp url r).events =
        (streamLoop (N : Int) r.body 0 [] []).2.2 := by
      rw [download_media, if_neg hst, hcl]
    have htpos : (0 : Int) < (N : Int) := by exact_mod_cast hN
    constructor
    · rw [hev, hb, streamLoop_ok_events _ htpos chunks 0 [] []]
      simp
    · intro hsum
      rw [hev, hb, streamLoop_ok_events _ htpos chunks 0 [] []]
      simp only [List.nil_append]
      have hne : sumLens chunks ≠ 0 := by omega
      rw [knownEvents_getLast _ chunks 0 hne, hsum]
      rw [Nat.zero_add]
  · intro hcl e he
    by_cases hst : 400 ≤ r.status ∧ r.status < 600
    · rw [download_media, if_pos hst] at he
      simp at he
    · have hcl0 : clTotal r = some 0 := by
        rcases hcl with h | ⟨s, hs, hp⟩
        · rw [clTotal.eq_def, h]
        · rw [clTotal.eq_def, hs]
          exact hp
      rw [download_media, if_neg hst, hcl0] at he
      exact streamLoop_indet_events 0 (le_refl 0) r.body 0 [] [] (by simp) e he

/-- C5 witness: a concrete download with Content-Length 5 and chunks of sizes
3 and 2 ends reporting 5 of 5, and a concrete download without Content-Length
emits an indeterminate event. -/
theorem c5_progress_reporting_witness :
    (download_media guessNone tmp0 url0
        ⟨200, some ("5".toList), none, [Except.ok [1, 2, 3], Except.ok [4, 5]]⟩).events.getLast?
      = some (ProgressEvent.known 5 ((5 : Nat) : Int)) ∧
    (∃ d, ProgressEvent.indeterminate 3 = ProgressEvent.indeterminate d) := by
  constructor
  · exact ((c5_progress_reporting guessNone tmp0 url0
        ⟨200, some ("5".toList), none, [Except.ok [1, 2, 3], Except.ok [4, 5]]⟩).1
      [[1, 2, 3], [4, 5]] ("5".toList) 5 rfl rfl (by decide) (by decide) (by decide)).2
      (by decide)
  · exact (c5_progress_reporting guessNone tmp0 url0
        ⟨200, none, none, [Except.ok [1, 2, 3]]⟩).2 (Or.inl rfl)
      (ProgressEvent.indeterminate 3) (by decide)

/-- Converting a valid code point to a character and back is the identity. -/
theorem char_toNat_ofNat (n : Nat) (h : n.isValidChar) : (Char.ofNat n).toNat = n := by
  rw [Char.ofNat, dif_pos h]
  rfl

/-- ASCII lowering cannot produce a character below the uppercase range from
an uppercase letter, so characters like the dot and the slash are fixed
points with no other preimage. -/
theorem toLower_eq_nonletter {a x : Char} (hx : x.toNat < 65)
    (h : Char.toLower a = x) : a = x := by
  simp only [Char.toLower] at h
  split_ifs at h with hr
  · exfalso
    have hv : (a.toNat + 32).isValidChar := Or.inl (by omega)
    have h2 := congrArg Char.toNat h
    rw [char_toNat_ofNat _ hv] at h2
    omega
  · exact h

/-- The last occurrence of an absent character is not found. -/
theorem rfindIdx_not_mem (c : Char) :
    ∀ l : List Char, c ∉ l → rfindIdx c l = none := by
  intro l
  induction l with
  | nil => intro h; rfl
  | cons x xs ih =>
    intro h
    rw [rfindIdx, ih (fun hm => h (List.mem_cons_of_mem _ hm))]
    have hxc : ¬((x == c) = true) := by
      simp only [beq_iff_eq]
      intro heq
      subst heq
      exact h (List.mem_cons_self x xs)
    rw [if_neg hxc]

/-- The last occurrence in pre ++ c :: t, with c absent from t, is at the
length of pre. -/
theorem rfindIdx_append_cons (c : Char) (t : List Char) (hc : c ∉ t) :
    ∀ pre : List Char, rfindIdx c (pre ++ c :: t) = some pre.length := by
  intro pre
  induction pre with
  | nil => simp [rfindIdx, rfindIdx_not_mem c t hc]
  | cons x xs ih =>
    rw [List.cons_append, rfindIdx, ih]
    rfl

/-- Appending characters that never match leaves the last index unchanged. -/
theorem rfindIdx_append_not_mem (c : Char) (s : List Char) (hs : c ∉ s) :
    ∀ pre : List Char, rfindIdx c (pre ++ s) = rfindIdx c pre := by
  intro pre
  induction pre with
  | nil =>
    rw [List.nil_append, rfindIdx_not_mem c s hs]
    rfl
  | cons x xs ih =>
    rw [List.cons_append, rfindIdx, rfindIdx, ih]

/-- A found last index is inside the list. -/
theorem rfindIdx_lt_length (c : Char) :
    ∀ (l : List Char) (j : Nat), rfindIdx c l = some j → j < l.length := by
  intro l
  induction l with
  | nil => intro j h; exact absurd h (by simp [rfindIdx])
  | cons x xs ih =>
    intro j h
    rw [rfindIdx] at h
    cases hx : rfindIdx c xs with
    | some j2 =>
      rw [hx] at h
      obtain rfl : j2 + 1 = j := Option.some.inj h
      exact Nat.succ_lt_succ (ih j2 hx)
    | none =>
      rw [hx] at h
      split_ifs at h with hxc
      obtain rfl : 0 = j := Option.some.inj h
      exact Nat.succ_pos _

/-- The character at a found last index is the sought character. -/
theorem rfindIdx_getD (c : Char) :
    ∀ (l : List Char) (j : Nat), rfindIdx c l = some j → l.getD j ' ' = c := by
  intro l
  induction l with
  | nil => intro j h; exact absurd h (by simp [rfindIdx])
  | cons x xs ih =>
    intro j h
    rw [rfindIdx] at h
    cases hx : rfindIdx c xs with
    | some j2 =>
      rw [hx] at h
      obtain rfl : j2 + 1 = j := Option.some.inj h
      simpa using ih j2 hx
    | none =>
      rw [hx] at h
      split_ifs at h with hxc
      obtain rfl : 0 = j := Option.some.inj h
      simpa using eq_of_beq hxc

/-- The element just past a list, in list-append-singleton form. -/
theorem getD_append_length (l : List Char) (x : Char) :
    (l ++ [x]).getD l.length ' ' = x := by
  induction l with
  | nil => rfl
  | cons a as ih =>
    simp only [List.cons_append, List.length_cons, List.getD_cons_succ]
    exact ih

/-- A string whose ASCII lowering is a dot followed by a dot-free, slash-free
tail starts with a literal dot and has a dot-free, slash-free tail itself. -/
theorem lower_shape_aux (s L : List Char) (h : strLower s = '.' :: L)
    (hd : ('.' : Char) ∉ L) (hs : ('/' : Char) ∉ L) :
    ∃ t, s = '.' :: t ∧ ('.' : Char) ∉ t ∧ ('/' : Char) ∉ t := by
  cases s with
  | nil => exact absurd h (by simp [strLower])
  | cons a t =>
    rw [strLower, List.map_cons] at h
    injection h with h1 h2
    have ha : a = '.' := toLower_eq_nonletter (by decide) h1
    subst ha
    refine ⟨t, rfl, ?_, ?_⟩
    · intro hdt
      have hmem : Char.toLower '.' ∈ List.map Char.toLower t :=
        List.mem_map_of_mem _ hdt
      rw [h2, show Char.toLower '.' = '.' from rfl] at hmem
      exact hd hmem
    · intro hsl
      have hmem : Char.toLower '/' ∈ List.map Char.toLower t :=
        List.mem_map_of_mem _ hsl
      rw [h2, show Char.toLower '/' = '/' from rfl] at hmem
      exact hs hmem

/-- Every member of the supported set, read back through ASCII lowering, is a
dot followed by a dot-free, slash-free tail. -/
theorem supported_shape (s : List Char) (h : strLower s ∈ SUPPORTED_EXTS) :
    ∃ t, s = '.' :: t ∧ ('.' : Char) ∉ t ∧ ('/' : Char) ∉ t := by
  simp only [SUPPORTED_EXTS, List.mem_cons, List.mem_nil_iff, or_false] at h
  rcases h with h | h | h | h | h | h | h | h | h | h | h | h <;>
    exact lower_shape_aux _ _ h (by decide) (by decide)

/-- When the last dot was found and the check on the final segment passes,
splitext splits at that dot. -/
theorem os_splitext_of_finds (p : List Char) (d : Nat)
    (hd : rfindIdx '.' p = some d) (hle : fstartOf p ≤ d)
    (hany : ((p.drop (fstartOf p)).take (d - fstartOf p)).any
      (fun ch => !(ch == '.')) = true) :
    os_splitext p = (p.take d, p.drop d) := by
  rw [os_splitext.eq_def, hd]
  show (if fstartOf p ≤ d ∧
      ((p.drop (fstartOf p)).take (d - fstartOf p)).any (fun c => !(c == '.')) = true
    then (p.take d, p.drop d) else (p, [])) = (p.take d, p.drop d)
  rw [if_pos ⟨hle, hany⟩]

/-- Splitext on a path of the form pre, then one neutral character, then a
true dot-extension, returns that extension. -/
theorem os_splitext_true_ext (pre : List Char) (c : Char) (t : List Char)
    (hcd : c ≠ '.') (hcs : c ≠ '/') (hdt : ('.' : Char) ∉ t) (hst : ('/' : Char) ∉ t) :
    os_splitext (pre ++ c :: '.' :: t) = (pre ++ [c], '.' :: t) := by
  have hns : ('/' : Char) ∉ ('.' :: t : List Char) := by
    intro hm
    rcases List.mem_cons.1 hm with h | h
    · exact absurd h (by decide)
    · exact hst h
  rw [show pre ++ c :: '.' :: t = (pre ++ [c]) ++ '.' :: t by simp]
  have hd : rfindIdx '.' ((pre ++ [c]) ++ '.' :: t) = some (pre.length + 1) := by
    rw [rfindIdx_append_cons '.' t hdt (pre ++ [c])]
    simp
  have hslash : rfindIdx '/' ((pre ++ [c]) ++ '.' :: t) = rfindIdx '/' (pre ++ [c]) :=
    rfindIdx_append_not_mem '/' ('.' :: t) hns (pre ++ [c])
  have hfs : fstartOf ((pre ++ [c]) ++ '.' :: t) ≤ pre.length := by
    rw [fstartOf.eq_def, hslash]
    cases hsp : rfindIdx '/' (pre ++ [c]) with
    | none => exact Nat.zero_le _
    | some j =>
      have hjlt : j < (pre ++ [c]).length := rfindIdx_lt_length '/' _ j hsp
      have hjne : j ≠ pre.length := by
        intro hj
        subst hj
        have hg2 := rfindIdx_getD '/' _ _ hsp
        rw [getD_append_length] at hg2
        exact hcs hg2
      have hql : (pre ++ [c]).length = pre.length + 1 := by simp
      show j + 1 ≤ pre.length
      omega
  have hdle : fstartOf ((pre ++ [c]) ++ '.' :: t) ≤ pre.length + 1 :=
    Nat.le_trans hfs (Nat.le_succ _)
  have hslice : (((pre ++ [c]) ++ '.' :: t).drop (fstartOf ((pre ++ [c]) ++ '.' :: t))).take
      (pre.length + 1 - fstartOf ((pre ++ [c]) ++ '.' :: t)) =
      (pre ++ [c]).drop (fstartOf ((pre ++ [c]) ++ '.' :: t)) := by
    rw [List.drop_append_of_le_length
      (by simp only [List.length_append, List.length_cons, List.length_nil]; omega)]
    exact List.take_left'
      (by simp only [List.length_drop, List.length_append, List.length_cons,
            List.length_nil])
  have hany : ((((pre ++ [c]) ++ '.' :: t).drop (fstartOf ((pre ++ [c]) ++ '.' :: t))).take
      (pre.length + 1 - fstartOf ((pre ++ [c]) ++ '.' :: t))).any
      (fun ch => !(ch == '.')) = true := by
    rw [hslice, List.any_eq_true]
    refine ⟨c, ?_, by simp [hcd]⟩
    rw [List.drop_append_of_le_length hfs]
    exact List.mem_append_right _ (List.mem_singleton.2 rfl)
  rw [os_splitext_of_finds _ (pre.length + 1) hd hdle hany]
  rw [List.take_left' (by simp), List.drop_left' (by simp)]

/-- C3 counterexample: the path of https://x.com/.wav ends in .wav, a member
of the Supported Extension Set, yet infer_extension returns .mp4: splitext
treats .wav here as a dotfile name with no extension, so step 1 does not
fire and the mismatched content type falls through to the default. -/
theorem c3_counterexample :
    (urlparse ("https://x.com/.wav".toList)).path = "/".toList ++ ".wav".toList ∧
    strLower (".wav".toList) ∈ SUPPORTED_EXTS ∧
    infer_extension guessNone ("https://x.com/.wav".toList)
        (some ("text/html".toList)) = ".mp4".toList ∧
    ".mp4".toList ≠ strLower (".wav".toList) := by
  refine ⟨by decide, by decide, by decide, by decide⟩

/-- C3 amended: for every URL whose parsed path ends in a suffix s that
lowercases into the Supported Extension Set and whose character immediately
before s is neither a dot nor a slash (so s is a true splitext extension of
the final segment, not a dotfile name), infer_extension returns s lowercased,
for every content-type argument including a mismatched one. -/
theorem c3_path_extension_amended (g : List Char → Option (List Char))
    (url : List Char) (ct : Option (List Char)) (pre : List Char) (c : Char)
    (s : List Char)
    (hpath : (urlparse url).path = pre ++ c :: s)
    (hcd : c ≠ '.') (hcs : c ≠ '/')
    (hmem : strLower s ∈ SUPPORTED_EXTS) :
    infer_extension g url ct = strLower s := by
  obtain ⟨t, rfl, hdt, hst⟩ := supported_shape s hmem
  have hsplit : os_splitext ((urlparse url).path) = (pre ++ [c], '.' :: t) := by
    rw [hpath]
    exact os_splitext_true_ext pre c t hcd hcs hdt hst
  simp only [infer_extension, hsplit]
  rw [if_pos hmem]

/-- C3 amended witness: the specification example with uppercase .WAV and a
mismatched text/html content type resolves to .wav. -/
theorem c3_path_extension_amended_witness :
    infer_extension guessNone ("https://x.com/a/b.WAV".toList)
      (some ("text/html".toList)) = strLower (".WAV".toList) :=
  c3_path_extension_amended guessNone ("https://x.com/a/b.WAV".toList)
    (some ("text/html".toList)) ("/a/".toList) 'b' (".WAV".toList)
    (by decide) (by decide) (by decide) (by decide)
